import Mathlib

/-
  Shallow embedding of the Pratt expression parser in src/pratt.c.

  The parser turns an infix expression made of one-character tokens
  (variables A-Z a-z, binary operators + - * / =, unary ~, parentheses)
  into reverse-polish notation.

  Modelling decisions:
  * The C input is a NUL-terminated char buffer read through a moving
    pointer; we model the sequence of characters after the cursor as a
    `List Char`, where the end of the list plays the role of the
    terminating NUL byte.  `next_char` mirrors the C function exactly:
    it returns NUL without advancing at the end of the buffer, and it
    also refuses to advance past an embedded NUL character.
  * The output buffer of capacity MAX_OUTPUT is modelled as a growing
    `List Char`; `emit` refuses to append once the length has reached
    MAX_OUTPUT, which is exactly the `p->output == p->output_end` check.
  * The C program reports errors by `panic` and process exit; we model
    the three panic sites as an error value `PError`.
  * The mutual recursion of `parse_primary` and `parse_expr` (and the
    operator loop inside `parse_expr`) is made structural with a fuel
    parameter; `.outOfFuel` marks fuel exhaustion.  The theorem for the
    termination claim shows that fuel `3 * length input + 4` is always
    enough, so the fueled functions compute exactly what the C recursion
    computes.
-/

namespace Pratt

/-- Error values corresponding to the three `panic` call sites of the C
parser: an unexpected character in `parse_primary`, a mismatch in
`expect`, and output-buffer overflow in `emit`. -/
inductive PError where
  | unexpectedToken (got : Char)
  | tokenMismatch (expected got : Char)
  | outputOverflow
deriving DecidableEq, Repr

/-- Result of running a fueled parsing function: success, a parse error,
or fuel exhaustion (which the termination theorem rules out for
sufficient fuel). -/
inductive PResult (α : Type) where
  | ok (a : α)
  | err (e : PError)
  | outOfFuel
deriving DecidableEq, Repr

/-- Maximum number of characters in output buffer (`enum MAX_OUTPUT`). -/
def MAX_OUTPUT : Nat := 1024

/-- Parser state: the characters after the input cursor and the output
characters written so far. -/
structure Parser where
  input : List Char
  output : List Char
deriving DecidableEq, Repr

/-- Append given character at end of output (C `emit`): panics with
output overflow when the output buffer is full. -/
def emit (p : Parser) (ch : Char) : PResult Parser :=
  if p.output.length = MAX_OUTPUT then
    .err .outputOverflow
  else
    .ok { p with output := p.output ++ [ch] }

/-- Extract next character from input (C `next_char`): returns the NUL
sentinel at the end of input and advances the cursor only on a
non-sentinel character. -/
def next_char (p : Parser) : Char × Parser :=
  match p.input with
  | [] => ('\x00', p)
  | c :: rest => if c = '\x00' then (c, p) else (c, { p with input := rest })

/-- Consume next character in input and fail if this is not the expected
one (C `expect`). -/
def expect (p : Parser) (expected : Char) : PResult Parser :=
  let (got, p') := next_char p
  if got = expected then .ok p' else .err (.tokenMismatch expected got)

/-- Look ahead next character from input (C `peek_next_char`). -/
def peek_next_char (p : Parser) : Char :=
  match p.input with
  | [] => '\x00'
  | c :: _ => c

/-- Operator precedence and associativity (C `Operator`). -/
structure Operator where
  precedence : Nat
  right_associative : Bool
deriving DecidableEq, Repr

def assignment_op : Operator := { precedence := 1, right_associative := true }

def additive_op : Operator := { precedence := 10, right_associative := false }

def multiplicative_op : Operator := { precedence := 20, right_associative := false }

/-- Return characteristics of given operator or `none` if the given
character is not an operator (C `operator_info`). -/
def operator_info (ch : Char) : Option Operator :=
  match ch with
  | '=' => some assignment_op
  | '+' => some additive_op
  | '-' => some additive_op
  | '*' => some multiplicative_op
  | '/' => some multiplicative_op
  | _ => none

mutual

/-- C `parse_primary`, with fuel making the mutual recursion structural:
consume one character; on `~` parse a primary then emit `~`; on `(`
parse an expression with floor 0 then expect `)`; on a letter emit it;
otherwise fail with an unexpected-token error. -/
def parse_primary : Nat → Parser → PResult Parser
  | 0, _ => .outOfFuel
  | fuel + 1, p =>
    let (ch, p1) := next_char p
    if ch = '~' then
      match parse_primary fuel p1 with
      | .ok p2 => emit p2 '~'
      | .err e => .err e
      | .outOfFuel => .outOfFuel
    else if ch = '(' then
      match parse_expr fuel 0 p1 with
      | .ok p2 => expect p2 ')'
      | .err e => .err e
      | .outOfFuel => .outOfFuel
    else if ch.isAlpha then
      emit p1 ch
    else
      .err (.unexpectedToken ch)

/-- C `parse_expr`: parse one primary expression, then run the
operator-climbing loop. -/
def parse_expr : Nat → Nat → Parser → PResult Parser
  | 0, _, _ => .outOfFuel
  | fuel + 1, precedence, p =>
    match parse_primary fuel p with
    | .ok p1 => parse_expr_loop fuel precedence p1
    | .err e => .err e
    | .outOfFuel => .outOfFuel

/-- The `for (;;)` loop inside C `parse_expr`: peek the next character;
stop when it is not an operator or the floor is at least its precedence;
otherwise consume it, recurse with the adjusted floor, emit the operator
and continue. -/
def parse_expr_loop : Nat → Nat → Parser → PResult Parser
  | 0, _, _ => .outOfFuel
  | fuel + 1, precedence, p =>
    let ch := peek_next_char p
    match operator_info ch with
    | none => .ok p
    | some opi =>
      if precedence ≥ opi.precedence then
        .ok p
      else
        let (_, p1) := next_char p
        match parse_expr fuel (opi.precedence - (if opi.right_associative then 1 else 0)) p1 with
        | .ok p2 =>
          match emit p2 ch with
          | .ok p3 => parse_expr_loop fuel precedence p3
          | .err e => .err e
          | .outOfFuel => .outOfFuel
        | .err e => .err e
        | .outOfFuel => .outOfFuel

end

/-- Parser entry point (C `parse`): parse an expression with floor 0,
require the end sentinel, and write the terminating NUL through `emit`
into the same bounded output buffer.  Returns the full output buffer
contents, sentinel included. -/
def parse (fuel : Nat) (input : List Char) : PResult (List Char) :=
  match parse_expr fuel 0 { input := input, output := [] } with
  | .ok p1 =>
    match expect p1 '\x00' with
    | .ok p2 =>
      match emit p2 '\x00' with
      | .ok p3 => .ok p3.output
      | .err e => .err e
      | .outOfFuel => .outOfFuel
    | .err e => .err e
    | .outOfFuel => .outOfFuel
  | .err e => .err e
  | .outOfFuel => .outOfFuel

/-- Fuel that always suffices for `parse` on the given input (proved by
the termination theorem). -/
def fuelFor (input : List Char) : Nat := 3 * input.length + 4

/-- `parse` run with sufficient fuel: the model of one C `parse` call. -/
def parseC (input : List Char) : PResult (List Char) :=
  parse (fuelFor input) input

example : parseC "a".toList = .ok ("a".toList ++ ['\x00']) := by decide
example : parseC "a+b+c".toList = .ok ("ab+c+".toList ++ ['\x00']) := by decide
example : parseC "a=b=c".toList = .ok ("abc==".toList ++ ['\x00']) := by decide
example : parseC "(a+b)*c".toList = .ok ("ab+c*".toList ++ ['\x00']) := by decide
example : parseC "~~a".toList = .ok ("a~~".toList ++ ['\x00']) := by decide
example : parseC "".toList = .err (.unexpectedToken '\x00') := by decide
example : parseC "(a".toList = .err (.tokenMismatch ')' '\x00') := by decide
example : parseC "a)".toList = .err (.tokenMismatch '\x00' ')') := by decide

/-! ### Basic lemmas about the small helper functions -/

theorem next_char_fst (p : Parser) : (next_char p).1 = peek_next_char p := by
  obtain ⟨i, o⟩ := p
  cases i with
  | nil => rfl
  | cons c rest =>
    by_cases h : c = '\x00' <;> simp [next_char, peek_next_char, h]

theorem next_char_nil (o : List Char) :
    next_char ⟨[], o⟩ = ('\x00', ⟨[], o⟩) := rfl

theorem next_char_cons {c : Char} (rest : List Char) (o : List Char) (h : c ≠ '\x00') :
    next_char ⟨c :: rest, o⟩ = (c, ⟨rest, o⟩) := by
  simp [next_char, h]

theorem next_char_cons_null (rest o : List Char) :
    next_char ⟨'\x00' :: rest, o⟩ = ('\x00', ⟨'\x00' :: rest, o⟩) := by
  simp [next_char]

theorem emit_ok_iff (p : Parser) (ch : Char) (p' : Parser) :
    emit p ch = .ok p' ↔
      ¬ p.output.length = MAX_OUTPUT ∧ p' = ⟨p.input, p.output ++ [ch]⟩ := by
  unfold emit
  split <;> simp_all [eq_comm]

theorem emit_ne_oof (p : Parser) (ch : Char) : emit p ch ≠ .outOfFuel := by
  unfold emit
  split <;> simp

theorem expect_ok_iff (p : Parser) (e : Char) (p' : Parser) :
    expect p e = .ok p' ↔ (next_char p).1 = e ∧ p' = (next_char p).2 := by
  rcases hnc : next_char p with ⟨got, q⟩
  unfold expect
  rw [hnc]
  by_cases h : got = e <;> simp [h, eq_comm]

theorem expect_err_iff (p : Parser) (e : Char) (er : PError) :
    expect p e = .err er ↔
      (next_char p).1 ≠ e ∧ er = .tokenMismatch e (next_char p).1 := by
  rcases hnc : next_char p with ⟨got, q⟩
  unfold expect
  rw [hnc]
  by_cases h : got = e <;> simp [h, eq_comm]

theorem expect_ne_oof (p : Parser) (e : Char) : expect p e ≠ .outOfFuel := by
  rcases hnc : next_char p with ⟨got, q⟩
  unfold expect
  rw [hnc]
  by_cases h : got = e <;> simp [h]

theorem operator_info_chars {ch : Char} {op : Operator}
    (h : operator_info ch = some op) :
    ch = '=' ∨ ch = '+' ∨ ch = '-' ∨ ch = '*' ∨ ch = '/' := by
  unfold operator_info at h
  split at h <;> simp_all

theorem operator_info_not_special {ch : Char} {op : Operator}
    (h : operator_info ch = some op) :
    ch ≠ '\x00' ∧ ch ≠ '(' ∧ ch ≠ ')' ∧ ch ≠ '~' ∧ ¬ ch.isAlpha := by
  rcases operator_info_chars h with h' | h' | h' | h' | h' <;> subst h' <;> decide

theorem isAlpha_ne {c : Char} (h : c.isAlpha) :
    c ≠ '\x00' ∧ c ≠ '~' ∧ c ≠ '(' ∧ c ≠ ')' := by
  refine ⟨?_, ?_, ?_, ?_⟩ <;> rintro rfl <;> exact absurd h (by decide)

theorem expect_ok_cons {p p' : Parser} {e : Char} (he : e ≠ '\x00')
    (h : expect p e = .ok p') :
    p.input = e :: p'.input ∧ p'.output = p.output := by
  rw [expect_ok_iff] at h
  obtain ⟨h1, h2⟩ := h
  obtain ⟨i, o⟩ := p
  cases i with
  | nil => exact absurd h1.symm he
  | cons c rest =>
    by_cases hc : c = '\x00'
    · subst hc
      rw [next_char_cons_null] at h1 h2
      exact absurd h1.symm he
    · rw [next_char_cons rest o hc] at h1 h2
      have h1' : c = e := h1
      have h2' : p' = Parser.mk rest o := h2
      rw [h2']
      exact ⟨by rw [h1'], rfl⟩

/-! ### Step equations for the fueled mutual recursion -/

theorem parse_primary_zero (p : Parser) : parse_primary 0 p = .outOfFuel := rfl

theorem parse_expr_zero (prec : Nat) (p : Parser) :
    parse_expr 0 prec p = .outOfFuel := rfl

theorem parse_expr_loop_zero (prec : Nat) (p : Parser) :
    parse_expr_loop 0 prec p = .outOfFuel := rfl

theorem parse_primary_tilde (f : Nat) (rest o : List Char) :
    parse_primary (f + 1) ⟨'~' :: rest, o⟩ =
      match parse_primary f ⟨rest, o⟩ with
      | .ok p2 => emit p2 '~'
      | .err e => .err e
      | .outOfFuel => .outOfFuel := by
  simp [parse_primary, next_char]

theorem parse_primary_lparen (f : Nat) (rest o : List Char) :
    parse_primary (f + 1) ⟨'(' :: rest, o⟩ =
      match parse_expr f 0 ⟨rest, o⟩ with
      | .ok p2 => expect p2 ')'
      | .err e => .err e
      | .outOfFuel => .outOfFuel := by
  simp [parse_primary, next_char]

theorem parse_primary_alpha (f : Nat) {c : Char} (rest o : List Char)
    (h : c.isAlpha) :
    parse_primary (f + 1) ⟨c :: rest, o⟩ = emit ⟨rest, o⟩ c := by
  obtain ⟨h0, h1, h2, _⟩ := isAlpha_ne h
  simp [parse_primary, next_char, h, h0, h1, h2]

theorem parse_primary_bad (f : Nat) (p : Parser) (c : Char)
    (hp : peek_next_char p = c) (h1 : ¬ c.isAlpha) (h2 : c ≠ '~')
    (h3 : c ≠ '(') :
    parse_primary (f + 1) p = .err (.unexpectedToken c) := by
  obtain ⟨i, o⟩ := p
  cases i with
  | nil =>
    have hc : c = '\x00' := hp.symm
    subst hc
    simp [parse_primary, next_char]
  | cons c' rest =>
    have hc : c' = c := hp
    subst hc
    by_cases h0 : c' = '\x00'
    · subst h0
      simp [parse_primary, next_char, h1, h2, h3]
    · simp [parse_primary, next_char, h0, h1, h2, h3]

theorem parse_expr_succ (f prec : Nat) (p : Parser) :
    parse_expr (f + 1) prec p =
      match parse_primary f p with
      | .ok p1 => parse_expr_loop f prec p1
      | .err e => .err e
      | .outOfFuel => .outOfFuel := rfl

theorem parse_expr_loop_none (f prec : Nat) (p : Parser)
    (h : operator_info (peek_next_char p) = none) :
    parse_expr_loop (f + 1) prec p = .ok p := by
  simp [parse_expr_loop, h]

theorem parse_expr_loop_low (f prec : Nat) (p : Parser) (op : Operator)
    (h : operator_info (peek_next_char p) = some op)
    (hle : op.precedence ≤ prec) :
    parse_expr_loop (f + 1) prec p = .ok p := by
  simp [parse_expr_loop, h, hle]

theorem parse_expr_loop_go (f prec : Nat) {ch : Char} (rest o : List Char)
    (op : Operator) (ho : operator_info ch = some op)
    (hgt : prec < op.precedence) :
    parse_expr_loop (f + 1) prec ⟨ch :: rest, o⟩ =
      match parse_expr f (op.precedence - (if op.right_associative then 1 else 0)) ⟨rest, o⟩ with
      | .ok p2 =>
        (match emit p2 ch with
         | .ok p3 => parse_expr_loop f prec p3
         | .err e => .err e
         | .outOfFuel => .outOfFuel)
      | .err e => .err e
      | .outOfFuel => .outOfFuel := by
  have hnull : ch ≠ '\x00' := (operator_info_not_special ho).1
  have hpeek : peek_next_char ⟨ch :: rest, o⟩ = ch := rfl
  have hnotge : ¬ prec ≥ op.precedence := Nat.not_le.mpr hgt
  simp [parse_expr_loop, hpeek, ho, hnotge, next_char, hnull]

/-! ### Consumption and emission accounting

Each parsing function consumes a prefix of its input and appends to the
output exactly the consumed characters minus the parentheses, up to
reordering. -/

/-- Characters that emit themselves: everything except the two grouping
parentheses. -/
def notParen (c : Char) : Bool := decide (c ≠ '(' ∧ c ≠ ')')

/-- `Consumes p p'` states that running a parsing step from state `p` to
state `p'` consumed a prefix of the input and appended to the output a
permutation of the consumed characters with the parentheses removed. -/
def Consumes (p p' : Parser) : Prop :=
  ∃ pre d, p.input = pre ++ p'.input ∧ p'.output = p.output ++ d ∧
    d.Perm (pre.filter notParen)

theorem consumes_self (p : Parser) : Consumes p p :=
  ⟨[], [], rfl, by simp, by simp⟩

theorem consumes_trans {p q r : Parser} (h1 : Consumes p q)
    (h2 : Consumes q r) : Consumes p r := by
  obtain ⟨a, d1, ha, hb, hc⟩ := h1
  obtain ⟨b, d2, ha2, hb2, hc2⟩ := h2
  refine ⟨a ++ b, d1 ++ d2, ?_, ?_, ?_⟩
  · rw [ha, ha2, List.append_assoc]
  · rw [hb2, hb, List.append_assoc]
  · rw [List.filter_append]
    exact hc.append hc2

theorem notParen_of_ne {c : Char} (h1 : c ≠ '(') (h2 : c ≠ ')') :
    notParen c = true := by
  simp [notParen, h1, h2]

theorem consumes_all (fuel : Nat) :
    (∀ p p', parse_primary fuel p = .ok p' →
      Consumes p p' ∧ p'.input.length < p.input.length) ∧
    (∀ prec p p', parse_expr fuel prec p = .ok p' →
      Consumes p p' ∧ p'.input.length < p.input.length) ∧
    (∀ prec p p', parse_expr_loop fuel prec p = .ok p' →
      Consumes p p' ∧ p'.input.length ≤ p.input.length) := by
  induction fuel with
  | zero =>
    refine ⟨?_, ?_, ?_⟩
    · intro p p' h
      rw [parse_primary_zero] at h
      simp at h
    · intro prec p p' h
      rw [parse_expr_zero] at h
      simp at h
    · intro prec p p' h
      rw [parse_expr_loop_zero] at h
      simp at h
  | succ f ih =>
    obtain ⟨ihp, ihe, ihl⟩ := ih
    refine ⟨?_, ?_, ?_⟩
    · -- parse_primary
      intro p p' h
      obtain ⟨i, o⟩ := p
      cases i with
      | nil =>
        rw [parse_primary_bad f ⟨[], o⟩ '\x00' rfl (by decide) (by decide) (by decide)] at h
        simp at h
      | cons c rest =>
        by_cases hc : c = '~'
        · subst hc
          rw [parse_primary_tilde] at h
          cases hp : parse_primary f ⟨rest, o⟩ with
          | ok p2 =>
            rw [hp] at h
            simp only [] at h
            rw [emit_ok_iff] at h
            obtain ⟨-, hp'⟩ := h
            subst hp'
            obtain ⟨⟨pre, d, h1, h2, h3⟩, hlt⟩ := ihp _ _ hp
            refine ⟨⟨'~' :: pre, d ++ ['~'], ?_, ?_, ?_⟩, ?_⟩
            · simpa using h1
            · simp [h2]
            · have hnp : List.filter notParen ('~' :: pre) =
                  '~' :: List.filter notParen pre := by
                simp [List.filter_cons, show notParen '~' = true from by decide]
              rw [hnp]
              exact (List.perm_append_singleton '~' d).trans (h3.cons '~')
            · simpa using Nat.lt_succ_of_lt hlt
          | err e =>
            rw [hp] at h
            simp at h
          | outOfFuel =>
            rw [hp] at h
            simp at h
        · by_cases hc2 : c = '('
          · subst hc2
            rw [parse_primary_lparen] at h
            cases hp : parse_expr f 0 ⟨rest, o⟩ with
            | ok p2 =>
              rw [hp] at h
              simp only [] at h
              obtain ⟨hin, hout⟩ := expect_ok_cons (by decide) h
              obtain ⟨⟨pre, d, h1, h2, h3⟩, hlt⟩ := ihe _ _ _ hp
              have h1' : rest = pre ++ p2.input := h1
              have hlt' : p2.input.length < rest.length := hlt
              refine ⟨⟨'(' :: pre ++ [')'], d, ?_, ?_, ?_⟩, ?_⟩
              · show '(' :: rest = ('(' :: pre ++ [')']) ++ p'.input
                rw [h1', hin]
                simp
              · rw [hout, h2]
              · simpa [List.filter_cons, List.filter_append,
                  show notParen '(' = false from by decide,
                  show notParen ')' = false from by decide] using h3
              · rw [hin] at hlt'
                simp only [List.length_cons] at hlt' ⊢
                omega
            | err e =>
              rw [hp] at h
              simp at h
            | outOfFuel =>
              rw [hp] at h
              simp at h
          · by_cases hca : c.isAlpha
            · rw [parse_primary_alpha f rest o hca] at h
              rw [emit_ok_iff] at h
              obtain ⟨-, hp'⟩ := h
              subst hp'
              obtain ⟨-, -, hcl, hcr⟩ := isAlpha_ne hca
              refine ⟨⟨[c], [c], by simp, by simp, ?_⟩, by simp⟩
              simp [List.filter_cons, notParen_of_ne hcl hcr]
            · rw [parse_primary_bad f ⟨c :: rest, o⟩ c rfl hca hc hc2] at h
              simp at h
    · -- parse_expr
      intro prec p p' h
      rw [parse_expr_succ] at h
      cases hp : parse_primary f p with
      | ok p1 =>
        rw [hp] at h
        simp only [] at h
        obtain ⟨c1, l1⟩ := ihp _ _ hp
        obtain ⟨c2, l2⟩ := ihl _ _ _ h
        exact ⟨consumes_trans c1 c2, Nat.lt_of_le_of_lt l2 l1⟩
      | err e =>
        rw [hp] at h
        simp at h
      | outOfFuel =>
        rw [hp] at h
        simp at h
    · -- parse_expr_loop
      intro prec p p' h
      cases hop : operator_info (peek_next_char p) with
      | none =>
        rw [parse_expr_loop_none f prec p hop] at h
        simp only [PResult.ok.injEq] at h
        subst h
        exact ⟨consumes_self p, Nat.le_refl _⟩
      | some op =>
        by_cases hle : op.precedence ≤ prec
        · rw [parse_expr_loop_low f prec p op hop hle] at h
          simp only [PResult.ok.injEq] at h
          subst h
          exact ⟨consumes_self p, Nat.le_refl _⟩
        · have hgt : prec < op.precedence := Nat.not_le.mp hle
          obtain ⟨i, o⟩ := p
          cases i with
          | nil =>
            have hpk : operator_info (peek_next_char (⟨[], o⟩ : Parser)) = none := rfl
            rw [hpk] at hop
            simp at hop
          | cons c rest =>
            have hopc : operator_info c = some op := hop
            rw [parse_expr_loop_go f prec rest o op hopc hgt] at h
            cases he : parse_expr f (op.precedence - (if op.right_associative then 1 else 0)) ⟨rest, o⟩ with
            | ok p2 =>
              rw [he] at h
              simp only [] at h
              cases hem : emit p2 c with
              | ok p3 =>
                rw [hem] at h
                simp only [] at h
                rw [emit_ok_iff] at hem
                obtain ⟨-, hp3⟩ := hem
                subst hp3
                obtain ⟨⟨pre1, d1, ha1, hb1, hc1⟩, l1⟩ := ihe _ _ _ he
                obtain ⟨⟨pre2, d2, ha2, hb2, hc2⟩, l2⟩ := ihl _ _ _ h
                have ha1' : rest = pre1 ++ p2.input := ha1
                have hb1' : p2.output = o ++ d1 := hb1
                have ha2' : p2.input = pre2 ++ p'.input := ha2
                have hb2' : p'.output = (p2.output ++ [c]) ++ d2 := hb2
                have l1' : p2.input.length < rest.length := l1
                have l2' : p'.input.length ≤ p2.input.length := l2
                obtain ⟨hcnl, hclp, hcrp, -, -⟩ := operator_info_not_special hopc
                refine ⟨⟨c :: (pre1 ++ pre2), d1 ++ [c] ++ d2, ?_, ?_, ?_⟩, ?_⟩
                · show c :: rest = (c :: (pre1 ++ pre2)) ++ p'.input
                  rw [ha1', ha2']
                  simp
                · show p'.output = o ++ (d1 ++ [c] ++ d2)
                  rw [hb2', hb1']
                  simp
                · have hfc : List.filter notParen (c :: (pre1 ++ pre2)) =
                      c :: (List.filter notParen pre1 ++ List.filter notParen pre2) := by
                    simp [List.filter_cons, List.filter_append,
                      notParen_of_ne hclp hcrp]
                  rw [hfc]
                  have hmid : (d1 ++ [c] ++ d2).Perm (c :: (d1 ++ d2)) := by
                    rw [List.append_assoc]
                    exact List.perm_middle
                  exact hmid.trans ((hc1.append hc2).cons c)
                · show p'.input.length ≤ (c :: rest).length
                  simp only [List.length_cons]
                  omega
              | err e =>
                rw [hem] at h
                simp at h
              | outOfFuel =>
                rw [hem] at h
                simp at h
            | err e =>
              rw [he] at h
              simp at h
            | outOfFuel =>
              rw [he] at h
              simp at h

/-! ### Fuel monotonicity: a result other than fuel exhaustion is stable
under increasing the fuel. -/

theorem mono_all (f : Nat) :
    (∀ f' p r, f ≤ f' → parse_primary f p = r → r ≠ .outOfFuel →
      parse_primary f' p = r) ∧
    (∀ f' prec p r, f ≤ f' → parse_expr f prec p = r → r ≠ .outOfFuel →
      parse_expr f' prec p = r) ∧
    (∀ f' prec p r, f ≤ f' → parse_expr_loop f prec p = r → r ≠ .outOfFuel →
      parse_expr_loop f' prec p = r) := by
  induction f with
  | zero =>
    refine ⟨?_, ?_, ?_⟩
    · intro f' p r hf h hne
      rw [parse_primary_zero] at h
      exact absurd h.symm hne
    · intro f' prec p r hf h hne
      rw [parse_expr_zero] at h
      exact absurd h.symm hne
    · intro f' prec p r hf h hne
      rw [parse_expr_loop_zero] at h
      exact absurd h.symm hne
  | succ f ih =>
    obtain ⟨ihp, ihe, ihl⟩ := ih
    refine ⟨?_, ?_, ?_⟩
    · -- parse_primary
      intro f' p r hf h hne
      cases f' with
      | zero => omega
      | succ f'' =>
        have hle : f ≤ f'' := Nat.succ_le_succ_iff.mp hf
        obtain ⟨i, o⟩ := p
        cases i with
        | nil =>
          rw [parse_primary_bad f ⟨[], o⟩ '\x00' rfl (by decide) (by decide) (by decide)] at h
          rw [parse_primary_bad f'' ⟨[], o⟩ '\x00' rfl (by decide) (by decide) (by decide)]
          exact h
        | cons c rest =>
          by_cases hc : c = '~'
          · subst hc
            rw [parse_primary_tilde] at h
            rw [parse_primary_tilde]
            cases hp : parse_primary f ⟨rest, o⟩ with
            | ok p2 =>
              rw [hp] at h
              rw [ihp f'' ⟨rest, o⟩ _ hle hp (by simp)]
              exact h
            | err e =>
              rw [hp] at h
              rw [ihp f'' ⟨rest, o⟩ _ hle hp (by simp)]
              exact h
            | outOfFuel =>
              rw [hp] at h
              exact absurd h.symm hne
          · by_cases hc2 : c = '('
            · subst hc2
              rw [parse_primary_lparen] at h
              rw [parse_primary_lparen]
              cases hp : parse_expr f 0 ⟨rest, o⟩ with
              | ok p2 =>
                rw [hp] at h
                rw [ihe f'' 0 ⟨rest, o⟩ _ hle hp (by simp)]
                exact h
              | err e =>
                rw [hp] at h
                rw [ihe f'' 0 ⟨rest, o⟩ _ hle hp (by simp)]
                exact h
              | outOfFuel =>
                rw [hp] at h
                exact absurd h.symm hne
            · by_cases hca : c.isAlpha
              · rw [parse_primary_alpha f rest o hca] at h
                rw [parse_primary_alpha f'' rest o hca]
                exact h
              · rw [parse_primary_bad f ⟨c :: rest, o⟩ c rfl hca hc hc2] at h
                rw [parse_primary_bad f'' ⟨c :: rest, o⟩ c rfl hca hc hc2]
                exact h
    · -- parse_expr
      intro f' prec p r hf h hne
      cases f' with
      | zero => omega
      | succ f'' =>
        have hle : f ≤ f'' := Nat.succ_le_succ_iff.mp hf
        rw [parse_expr_succ] at h
        rw [parse_expr_succ]
        cases hp : parse_primary f p with
        | ok p1 =>
          rw [hp] at h
          rw [ihp f'' p _ hle hp (by simp)]
          have h' : parse_expr_loop f prec p1 = r := h
          show parse_expr_loop f'' prec p1 = r
          exact ihl f'' prec p1 r hle h' hne
        | err e =>
          rw [hp] at h
          rw [ihp f'' p _ hle hp (by simp)]
          exact h
        | outOfFuel =>
          rw [hp] at h
          exact absurd h.symm hne
    · -- parse_expr_loop
      intro f' prec p r hf h hne
      cases f' with
      | zero => omega
      | succ f'' =>
        have hle : f ≤ f'' := Nat.succ_le_succ_iff.mp hf
        cases hop : operator_info (peek_next_char p) with
        | none =>
          rw [parse_expr_loop_none f prec p hop] at h
          rw [parse_expr_loop_none f'' prec p hop]
          exact h
        | some op =>
          by_cases hple : op.precedence ≤ prec
          · rw [parse_expr_loop_low f prec p op hop hple] at h
            rw [parse_expr_loop_low f'' prec p op hop hple]
            exact h
          · have hgt : prec < op.precedence := Nat.not_le.mp hple
            obtain ⟨i, o⟩ := p
            cases i with
            | nil =>
              have hpk : operator_info (peek_next_char (⟨[], o⟩ : Parser)) = none := rfl
              rw [hpk] at hop
              simp at hop
            | cons c rest =>
              have hopc : operator_info c = some op := hop
              rw [parse_expr_loop_go f prec rest o op hopc hgt] at h
              rw [parse_expr_loop_go f'' prec rest o op hopc hgt]
              cases he : parse_expr f (op.precedence - (if op.right_associative then 1 else 0)) ⟨rest, o⟩ with
              | ok p2 =>
                rw [he] at h
                rw [ihe f'' _ ⟨rest, o⟩ _ hle he (by simp)]
                have h' : (match emit p2 c with
                    | .ok p3 => parse_expr_loop f prec p3
                    | .err e => .err e
                    | .outOfFuel => .outOfFuel) = r := h
                show (match emit p2 c with
                    | .ok p3 => parse_expr_loop f'' prec p3
                    | .err e => .err e
                    | .outOfFuel => .outOfFuel) = r
                cases hem : emit p2 c with
                | ok p3 =>
                  rw [hem] at h'
                  exact ihl f'' prec p3 r hle h' hne
                | err e =>
                  rw [hem] at h'
                  exact h'
                | outOfFuel => exact absurd hem (emit_ne_oof p2 c)
              | err e =>
                rw [he] at h
                rw [ihe f'' _ ⟨rest, o⟩ _ hle he (by simp)]
                exact h
              | outOfFuel =>
                rw [he] at h
                exact absurd h.symm hne

/-! ### Fuel sufficiency: the mutual recursion is bounded by the length
of the remaining input, so fuel linear in the input length never runs
out.  This is the well-foundedness argument of the termination claim. -/

theorem sufficient_fuel (n : Nat) : ∀ (p : Parser), p.input.length ≤ n →
    (∀ f, 3 * n + 1 ≤ f → parse_primary f p ≠ .outOfFuel) ∧
    (∀ f prec, 3 * n + 3 ≤ f → parse_expr f prec p ≠ .outOfFuel) ∧
    (∀ f prec, 3 * n + 1 ≤ f → parse_expr_loop f prec p ≠ .outOfFuel) := by
  induction n with
  | zero =>
    intro p hp
    have hnil : p.input = [] := List.length_eq_zero.mp (Nat.le_zero.mp hp)
    obtain ⟨i, o⟩ := p
    have hi : i = [] := hnil
    subst hi
    refine ⟨?_, ?_, ?_⟩
    · intro f hf
      obtain ⟨f1, rfl⟩ : ∃ k, f = k + 1 := ⟨f - 1, by omega⟩
      rw [parse_primary_bad f1 ⟨[], o⟩ '\x00' rfl (by decide) (by decide) (by decide)]
      simp
    · intro f prec hf
      obtain ⟨f1, rfl⟩ : ∃ k, f = k + 1 := ⟨f - 1, by omega⟩
      obtain ⟨f2, rfl⟩ : ∃ k, f1 = k + 1 := ⟨f1 - 1, by omega⟩
      rw [parse_expr_succ]
      rw [parse_primary_bad f2 ⟨[], o⟩ '\x00' rfl (by decide) (by decide) (by decide)]
      simp
    · intro f prec hf
      obtain ⟨f1, rfl⟩ : ∃ k, f = k + 1 := ⟨f - 1, by omega⟩
      rw [parse_expr_loop_none f1 prec ⟨[], o⟩ rfl]
      simp
  | succ n ih =>
    intro p hp
    have hP : ∀ f, 3 * (n + 1) + 1 ≤ f → parse_primary f p ≠ .outOfFuel := by
      intro f hf
      obtain ⟨f1, rfl⟩ : ∃ k, f = k + 1 := ⟨f - 1, by omega⟩
      obtain ⟨i, o⟩ := p
      cases i with
      | nil =>
        rw [parse_primary_bad f1 ⟨[], o⟩ '\x00' rfl (by decide) (by decide) (by decide)]
        simp
      | cons c rest =>
        have hrest : rest.length ≤ n := by
          simp only [List.length_cons] at hp
          omega
        by_cases hc : c = '~'
        · subst hc
          rw [parse_primary_tilde]
          cases hrec : parse_primary f1 ⟨rest, o⟩ with
          | ok p2 => exact emit_ne_oof p2 '~'
          | err e => simp
          | outOfFuel =>
            exact absurd hrec ((ih ⟨rest, o⟩ hrest).1 f1 (by omega))
        · by_cases hc2 : c = '('
          · subst hc2
            rw [parse_primary_lparen]
            cases hrec : parse_expr f1 0 ⟨rest, o⟩ with
            | ok p2 => exact expect_ne_oof p2 ')'
            | err e => simp
            | outOfFuel =>
              exact absurd hrec ((ih ⟨rest, o⟩ hrest).2.1 f1 0 (by omega))
          · by_cases hca : c.isAlpha
            · rw [parse_primary_alpha f1 rest o hca]
              exact emit_ne_oof ⟨rest, o⟩ c
            · rw [parse_primary_bad f1 ⟨c :: rest, o⟩ c rfl hca hc hc2]
              simp
    have hL : ∀ f prec, 3 * (n + 1) + 1 ≤ f → parse_expr_loop f prec p ≠ .outOfFuel := by
      intro f prec hf
      obtain ⟨f1, rfl⟩ : ∃ k, f = k + 1 := ⟨f - 1, by omega⟩
      cases hop : operator_info (peek_next_char p) with
      | none =>
        rw [parse_expr_loop_none f1 prec p hop]
        simp
      | some op =>
        by_cases hple : op.precedence ≤ prec
        · rw [parse_expr_loop_low f1 prec p op hop hple]
          simp
        · have hgt := Nat.not_le.mp hple
          obtain ⟨i, o⟩ := p
          cases i with
          | nil =>
            have hpk : operator_info (peek_next_char (⟨[], o⟩ : Parser)) = none := rfl
            rw [hpk] at hop
            simp at hop
          | cons c rest =>
            have hopc : operator_info c = some op := hop
            have hrest : rest.length ≤ n := by
              simp only [List.length_cons] at hp
              omega
            rw [parse_expr_loop_go f1 prec rest o op hopc hgt]
            cases he : parse_expr f1 (op.precedence - (if op.right_associative then 1 else 0)) ⟨rest, o⟩ with
            | ok p2 =>
              show (match emit p2 c with
                  | .ok p3 => parse_expr_loop f1 prec p3
                  | .err e => .err e
                  | .outOfFuel => .outOfFuel) ≠ .outOfFuel
              cases hem : emit p2 c with
              | ok p3 =>
                have hlen2 : p2.input.length < rest.length :=
                  ((consumes_all f1).2.1 _ _ _ he).2
                have hp3 : p3.input.length ≤ n := by
                  rw [emit_ok_iff] at hem
                  obtain ⟨-, rfl⟩ := hem
                  show p2.input.length ≤ n
                  omega
                exact (ih p3 hp3).2.2 f1 prec (by omega)
              | err e => simp
              | outOfFuel => exact absurd hem (emit_ne_oof p2 c)
            | err e => simp
            | outOfFuel =>
              exact absurd he ((ih ⟨rest, o⟩ hrest).2.1 f1 _ (by omega))
    have hE : ∀ f prec, 3 * (n + 1) + 3 ≤ f → parse_expr f prec p ≠ .outOfFuel := by
      intro f prec hf
      obtain ⟨f1, rfl⟩ : ∃ k, f = k + 1 := ⟨f - 1, by omega⟩
      rw [parse_expr_succ]
      cases hprim : parse_primary f1 p with
      | ok p1 =>
        show parse_expr_loop f1 prec p1 ≠ .outOfFuel
        have hlen : p1.input.length < p.input.length :=
          ((consumes_all f1).1 _ _ hprim).2
        have hle1 : p1.input.length ≤ n := by omega
        exact (ih p1 hle1).2.2 f1 prec (by omega)
      | err e => simp
      | outOfFuel => exact absurd hprim (hP f1 (by omega))
    exact ⟨hP, hE, hL⟩

/-! ### Shape of the errors produced inside expression parsing -/

theorem emit_err_iff (p : Parser) (ch : Char) (e : PError) :
    emit p ch = .err e ↔
      p.output.length = MAX_OUTPUT ∧ e = .outputOverflow := by
  unfold emit
  split <;> simp_all [eq_comm]

/-- Invariant satisfied by every error raised inside `parse_primary`,
`parse_expr` and `parse_expr_loop`: an unexpected-token error always
names a character that starts no primary expression, and a mismatch
error always expects the closing parenthesis and reports a different
actual character. -/
def errWithin (e : PError) : Prop :=
  match e with
  | .unexpectedToken c => ¬ c.isAlpha ∧ c ≠ '~' ∧ c ≠ '('
  | .tokenMismatch expected got => expected = ')' ∧ got ≠ ')'
  | .outputOverflow => True

theorem err_all (fuel : Nat) :
    (∀ p e, parse_primary fuel p = .err e → errWithin e) ∧
    (∀ prec p e, parse_expr fuel prec p = .err e → errWithin e) ∧
    (∀ prec p e, parse_expr_loop fuel prec p = .err e → errWithin e) := by
  induction fuel with
  | zero =>
    refine ⟨?_, ?_, ?_⟩
    · intro p e h
      rw [parse_primary_zero] at h
      simp at h
    · intro prec p e h
      rw [parse_expr_zero] at h
      simp at h
    · intro prec p e h
      rw [parse_expr_loop_zero] at h
      simp at h
  | succ f ih =>
    obtain ⟨ihp, ihe, ihl⟩ := ih
    refine ⟨?_, ?_, ?_⟩
    · -- parse_primary
      intro p e h
      obtain ⟨i, o⟩ := p
      cases i with
      | nil =>
        rw [parse_primary_bad f ⟨[], o⟩ '\x00' rfl (by decide) (by decide) (by decide)] at h
        simp only [PResult.err.injEq] at h
        subst h
        exact ⟨by decide, by decide, by decide⟩
      | cons c rest =>
        by_cases hc : c = '~'
        · subst hc
          rw [parse_primary_tilde] at h
          cases hp : parse_primary f ⟨rest, o⟩ with
          | ok p2 =>
            rw [hp] at h
            simp only [] at h
            rw [emit_err_iff] at h
            obtain ⟨-, rfl⟩ := h
            trivial
          | err e2 =>
            rw [hp] at h
            simp only [PResult.err.injEq] at h
            subst h
            exact ihp _ _ hp
          | outOfFuel =>
            rw [hp] at h
            simp at h
        · by_cases hc2 : c = '('
          · subst hc2
            rw [parse_primary_lparen] at h
            cases hp : parse_expr f 0 ⟨rest, o⟩ with
            | ok p2 =>
              rw [hp] at h
              simp only [] at h
              rw [expect_err_iff] at h
              obtain ⟨hne, rfl⟩ := h
              exact ⟨rfl, fun hg => hne hg⟩
            | err e2 =>
              rw [hp] at h
              simp only [PResult.err.injEq] at h
              subst h
              exact ihe _ _ _ hp
            | outOfFuel =>
              rw [hp] at h
              simp at h
          · by_cases hca : c.isAlpha
            · rw [parse_primary_alpha f rest o hca] at h
              rw [emit_err_iff] at h
              obtain ⟨-, rfl⟩ := h
              trivial
            · rw [parse_primary_bad f ⟨c :: rest, o⟩ c rfl hca hc hc2] at h
              simp only [PResult.err.injEq] at h
              subst h
              exact ⟨hca, hc, hc2⟩
    · -- parse_expr
      intro prec p e h
      rw [parse_expr_succ] at h
      cases hp : parse_primary f p with
      | ok p1 =>
        rw [hp] at h
        exact ihl _ _ _ h
      | err e2 =>
        rw [hp] at h
        simp only [PResult.err.injEq] at h
        subst h
        exact ihp _ _ hp
      | outOfFuel =>
        rw [hp] at h
        simp at h
    · -- parse_expr_loop
      intro prec p e h
      cases hop : operator_info (peek_next_char p) with
      | none =>
        rw [parse_expr_loop_none f prec p hop] at h
        simp at h
      | some op =>
        by_cases hple : op.precedence ≤ prec
        · rw [parse_expr_loop_low f prec p op hop hple] at h
          simp at h
        · have hgt : prec < op.precedence := Nat.not_le.mp hple
          obtain ⟨i, o⟩ := p
          cases i with
          | nil =>
            have hpk : operator_info (peek_next_char (⟨[], o⟩ : Parser)) = none := rfl
            rw [hpk] at hop
            simp at hop
          | cons c rest =>
            have hopc : operator_info c = some op := hop
            rw [parse_expr_loop_go f prec rest o op hopc hgt] at h
            cases he : parse_expr f (op.precedence - (if op.right_associative then 1 else 0)) ⟨rest, o⟩ with
            | ok p2 =>
              rw [he] at h
              simp only [] at h
              cases hem : emit p2 c with
              | ok p3 =>
                rw [hem] at h
                exact ihl _ _ _ h
              | err e2 =>
                rw [hem] at h
                simp only [PResult.err.injEq] at h
                subst h
                rw [emit_err_iff] at hem
                obtain ⟨-, rfl⟩ := hem
                trivial
              | outOfFuel => exact absurd hem (emit_ne_oof p2 c)
            | err e2 =>
              rw [he] at h
              simp only [PResult.err.injEq] at h
              subst h
              exact ihe _ _ _ he
            | outOfFuel =>
              rw [he] at h
              simp at h

/-! ### Output length never exceeds the capacity -/

theorem outlen_all (fuel : Nat) :
    (∀ p p', parse_primary fuel p = .ok p' →
      p.output.length ≤ MAX_OUTPUT → p'.output.length ≤ MAX_OUTPUT) ∧
    (∀ prec p p', parse_expr fuel prec p = .ok p' →
      p.output.length ≤ MAX_OUTPUT → p'.output.length ≤ MAX_OUTPUT) ∧
    (∀ prec p p', parse_expr_loop fuel prec p = .ok p' →
      p.output.length ≤ MAX_OUTPUT → p'.output.length ≤ MAX_OUTPUT) := by
  induction fuel with
  | zero =>
    refine ⟨?_, ?_, ?_⟩
    · intro p p' h
      rw [parse_primary_zero] at h
      simp at h
    · intro prec p p' h
      rw [parse_expr_zero] at h
      simp at h
    · intro prec p p' h
      rw [parse_expr_loop_zero] at h
      simp at h
  | succ f ih =>
    obtain ⟨ihp, ihe, ihl⟩ := ih
    refine ⟨?_, ?_, ?_⟩
    · -- parse_primary
      intro p p' h hlen
      obtain ⟨i, o⟩ := p
      cases i with
      | nil =>
        rw [parse_primary_bad f ⟨[], o⟩ '\x00' rfl (by decide) (by decide) (by decide)] at h
        simp at h
      | cons c rest =>
        by_cases hc : c = '~'
        · subst hc
          rw [parse_primary_tilde] at h
          cases hp : parse_primary f ⟨rest, o⟩ with
          | ok p2 =>
            rw [hp] at h
            simp only [] at h
            rw [emit_ok_iff] at h
            obtain ⟨hne, rfl⟩ := h
            have h2 := ihp _ _ hp hlen
            simp only [List.length_append, List.length_cons, List.length_nil]
            omega
          | err e2 =>
            rw [hp] at h
            simp at h
          | outOfFuel =>
            rw [hp] at h
            simp at h
        · by_cases hc2 : c = '('
          · subst hc2
            rw [parse_primary_lparen] at h
            cases hp : parse_expr f 0 ⟨rest, o⟩ with
            | ok p2 =>
              rw [hp] at h
              simp only [] at h
              obtain ⟨-, hout⟩ := expect_ok_cons (by decide) h
              rw [hout]
              exact ihe _ _ _ hp hlen
            | err e2 =>
              rw [hp] at h
              simp at h
            | outOfFuel =>
              rw [hp] at h
              simp at h
          · by_cases hca : c.isAlpha
            · rw [parse_primary_alpha f rest o hca] at h
              rw [emit_ok_iff] at h
              obtain ⟨hne, rfl⟩ := h
              simp only [List.length_append, List.length_cons, List.length_nil]
              have : o.length ≤ MAX_OUTPUT := hlen
              have : ¬ o.length = MAX_OUTPUT := hne
              omega
            · rw [parse_primary_bad f ⟨c :: rest, o⟩ c rfl hca hc hc2] at h
              simp at h
    · -- parse_expr
      intro prec p p' h hlen
      rw [parse_expr_succ] at h
      cases hp : parse_primary f p with
      | ok p1 =>
        rw [hp] at h
        exact ihl _ _ _ h (ihp _ _ hp hlen)
      | err e2 =>
        rw [hp] at h
        simp at h
      | outOfFuel =>
        rw [hp] at h
        simp at h
    · -- parse_expr_loop
      intro prec p p' h hlen
      cases hop : operator_info (peek_next_char p) with
      | none =>
        rw [parse_expr_loop_none f prec p hop] at h
        simp only [PResult.ok.injEq] at h
        subst h
        exact hlen
      | some op =>
        by_cases hple : op.precedence ≤ prec
        · rw [parse_expr_loop_low f prec p op hop hple] at h
          simp only [PResult.ok.injEq] at h
          subst h
          exact hlen
        · have hgt : prec < op.precedence := Nat.not_le.mp hple
          obtain ⟨i, o⟩ := p
          cases i with
          | nil =>
            have hpk : operator_info (peek_next_char (⟨[], o⟩ : Parser)) = none := rfl
            rw [hpk] at hop
            simp at hop
          | cons c rest =>
            have hopc : operator_info c = some op := hop
            rw [parse_expr_loop_go f prec rest o op hopc hgt] at h
            cases he : parse_expr f (op.precedence - (if op.right_associative then 1 else 0)) ⟨rest, o⟩ with
            | ok p2 =>
              rw [he] at h
              simp only [] at h
              cases hem : emit p2 c with
              | ok p3 =>
                rw [hem] at h
                have hl2 : p2.output.length ≤ MAX_OUTPUT := ihe _ _ _ he hlen
                rw [emit_ok_iff] at hem
                obtain ⟨hne, rfl⟩ := hem
                refine ihl _ _ _ h ?_
                show (p2.output ++ [c]).length ≤ MAX_OUTPUT
                simp only [List.length_append, List.length_cons, List.length_nil]
                omega
              | err e2 =>
                rw [hem] at h
                simp at h
              | outOfFuel => exact absurd hem (emit_ne_oof p2 c)
            | err e2 =>
              rw [he] at h
              simp at h
            | outOfFuel =>
              rw [he] at h
              simp at h

/-! ### Anatomy of a run of `parse` -/

theorem next_char_snd_output (p : Parser) :
    ((next_char p).2).output = p.output := by
  obtain ⟨i, o⟩ := p
  cases i with
  | nil => rfl
  | cons c rest =>
    by_cases hc : c = '\x00'
    · subst hc
      rw [next_char_cons_null]
    · rw [next_char_cons rest o hc]

theorem next_char_null_self {p : Parser} (h : (next_char p).1 = '\x00') :
    (next_char p).2 = p := by
  obtain ⟨i, o⟩ := p
  cases i with
  | nil => rfl
  | cons c rest =>
    by_cases hc : c = '\x00'
    · subst hc
      rw [next_char_cons_null]
    · rw [next_char_cons rest o hc] at h ⊢
      exact absurd h hc

theorem peek_null_cases {p : Parser} (h : peek_next_char p = '\x00') :
    p.input = [] ∨ ∃ rest, p.input = '\x00' :: rest := by
  obtain ⟨i, o⟩ := p
  cases i with
  | nil => exact Or.inl rfl
  | cons c rest =>
    right
    exact ⟨rest, by rw [show c = '\x00' from h]⟩

theorem parse_ok_anatomy {f : Nat} {input out : List Char}
    (h : parse f input = .ok out) :
    ∃ p1, parse_expr f 0 ⟨input, []⟩ = .ok p1 ∧ peek_next_char p1 = '\x00' ∧
      out = p1.output ++ ['\x00'] ∧ ¬ p1.output.length = MAX_OUTPUT := by
  unfold parse at h
  cases he : parse_expr f 0 ⟨input, []⟩ with
  | ok p1 =>
    rw [he] at h
    simp only [] at h
    cases hex : expect p1 '\x00' with
    | ok p2 =>
      rw [hex] at h
      simp only [] at h
      cases hem : emit p2 '\x00' with
      | ok p3 =>
        rw [hem] at h
        simp only [PResult.ok.injEq] at h
        subst h
        rw [expect_ok_iff] at hex
        obtain ⟨hg, rfl⟩ := hex
        rw [emit_ok_iff] at hem
        obtain ⟨hne, rfl⟩ := hem
        refine ⟨p1, rfl, ?_, ?_, ?_⟩
        · rw [← next_char_fst]
          exact hg
        · show ((next_char p1).2).output ++ ['\x00'] = p1.output ++ ['\x00']
          rw [next_char_snd_output]
        · rw [next_char_snd_output] at hne
          exact hne
      | err e2 =>
        rw [hem] at h
        simp at h
      | outOfFuel =>
        rw [hem] at h
        simp at h
    | err e2 =>
      rw [hex] at h
      simp at h
    | outOfFuel =>
      rw [hex] at h
      simp at h
  | err e =>
    rw [he] at h
    simp at h
  | outOfFuel =>
    rw [he] at h
    simp at h

theorem parse_err_unexpected {f : Nat} {input : List Char} {c : Char}
    (h : parse f input = .err (.unexpectedToken c)) :
    ¬ c.isAlpha ∧ c ≠ '~' ∧ c ≠ '(' := by
  unfold parse at h
  cases he : parse_expr f 0 ⟨input, []⟩ with
  | ok p1 =>
    rw [he] at h
    simp only [] at h
    cases hex : expect p1 '\x00' with
    | ok p2 =>
      rw [hex] at h
      simp only [] at h
      cases hem : emit p2 '\x00' with
      | ok p3 =>
        rw [hem] at h
        simp at h
      | err e2 =>
        rw [hem] at h
        rw [emit_err_iff] at hem
        obtain ⟨-, rfl⟩ := hem
        simp at h
      | outOfFuel =>
        rw [hem] at h
        simp at h
    | err e2 =>
      rw [hex] at h
      rw [expect_err_iff] at hex
      obtain ⟨-, rfl⟩ := hex
      simp at h
    | outOfFuel =>
      rw [hex] at h
      simp at h
  | err e1 =>
    rw [he] at h
    simp only [PResult.err.injEq] at h
    subst h
    exact (err_all f).2.1 _ _ _ he
  | outOfFuel =>
    rw [he] at h
    simp at h

theorem parse_err_mismatch {f : Nat} {input : List Char} {e g : Char}
    (h : parse f input = .err (.tokenMismatch e g)) :
    (e = ')' ∨ e = '\x00') ∧ g ≠ e := by
  unfold parse at h
  cases he : parse_expr f 0 ⟨input, []⟩ with
  | ok p1 =>
    rw [he] at h
    simp only [] at h
    cases hex : expect p1 '\x00' with
    | ok p2 =>
      rw [hex] at h
      simp only [] at h
      cases hem : emit p2 '\x00' with
      | ok p3 =>
        rw [hem] at h
        simp at h
      | err e2 =>
        rw [hem] at h
        rw [emit_err_iff] at hem
        obtain ⟨-, rfl⟩ := hem
        simp at h
      | outOfFuel =>
        rw [hem] at h
        simp at h
    | err e2 =>
      rw [hex] at h
      rw [expect_err_iff] at hex
      obtain ⟨hne, rfl⟩ := hex
      simp only [PResult.err.injEq, PError.tokenMismatch.injEq] at h
      obtain ⟨rfl, rfl⟩ := h
      exact ⟨Or.inr rfl, fun hg => hne (by rw [hg])⟩
    | outOfFuel =>
      rw [hex] at h
      simp at h
  | err e1 =>
    rw [he] at h
    simp only [PResult.err.injEq] at h
    subst h
    obtain ⟨h1, h2⟩ := (err_all f).2.1 _ _ _ he
    exact ⟨Or.inl h1, by rw [h1]; exact h2⟩
  | outOfFuel =>
    rw [he] at h
    simp at h

theorem parse_complete_no_mismatch {f : Nat} {input : List Char} {p1 : Parser}
    (he : parse_expr f 0 ⟨input, []⟩ = .ok p1) (hnil : p1.input = []) :
    ∀ e g, parse f input ≠ .err (.tokenMismatch e g) := by
  intro e g hcontra
  have hex : expect p1 '\x00' = .ok p1 := by
    rw [expect_ok_iff]
    obtain ⟨i, o⟩ := p1
    have hi : i = [] := hnil
    subst hi
    exact ⟨rfl, rfl⟩
  unfold parse at hcontra
  rw [he] at hcontra
  simp only [] at hcontra
  rw [hex] at hcontra
  simp only [] at hcontra
  cases hem : emit p1 '\x00' with
  | ok p3 =>
    rw [hem] at hcontra
    simp at hcontra
  | err e2 =>
    rw [hem] at hcontra
    rw [emit_err_iff] at hem
    obtain ⟨-, rfl⟩ := hem
    simp at hcontra
  | outOfFuel => exact absurd hem (emit_ne_oof p1 '\x00')

/-! ### Enough fuel: `parse` with fuel `fuelFor input` never runs out,
and more fuel does not change the result. -/

theorem parse_ne_oof (input : List Char) :
    parse (fuelFor input) input ≠ .outOfFuel := by
  unfold parse
  cases he : parse_expr (fuelFor input) 0 ⟨input, []⟩ with
  | ok p1 =>
    simp only []
    cases hex : expect p1 '\x00' with
    | ok p2 =>
      simp only []
      cases hem : emit p2 '\x00' with
      | ok p3 => simp
      | err e2 => simp
      | outOfFuel => exact absurd hem (emit_ne_oof p2 '\x00')
    | err e2 => simp
    | outOfFuel => exact absurd hex (expect_ne_oof p1 '\x00')
  | err e => simp
  | outOfFuel =>
    refine absurd he ((sufficient_fuel input.length ⟨input, []⟩ (Nat.le_refl _)).2.1 _ 0 ?_)
    show 3 * input.length + 3 ≤ fuelFor input
    unfold fuelFor
    omega

theorem parse_fuel_stable {input : List Char} {f : Nat}
    (hf : fuelFor input ≤ f) : parse f input = parseC input := by
  have hne : parse_expr (fuelFor input) 0 ⟨input, []⟩ ≠ .outOfFuel := by
    refine (sufficient_fuel input.length ⟨input, []⟩ (Nat.le_refl _)).2.1 _ 0 ?_
    show 3 * input.length + 3 ≤ fuelFor input
    unfold fuelFor
    omega
  have heq : parse_expr f 0 ⟨input, []⟩ = parse_expr (fuelFor input) 0 ⟨input, []⟩ :=
    (mono_all (fuelFor input)).2.1 f 0 ⟨input, []⟩ _ hf rfl hne
  unfold parseC parse
  rw [heq]

/-! ### Counting parentheses -/

/-- The two grouping characters, which are consumed but never emitted. -/
def isParen (c : Char) : Bool := decide (c = '(' ∨ c = ')')

theorem isParen_eq (c : Char) : isParen c = ! notParen c := by
  by_cases h1 : c = '(' <;> by_cases h2 : c = ')' <;>
    simp [isParen, notParen, h1, h2]

theorem filter_split_length (l : List Char) :
    (l.filter notParen).length + (l.filter isParen).length = l.length := by
  induction l with
  | nil => simp
  | cons c t ih =>
    cases hb : notParen c <;>
      simp [List.filter_cons, hb, isParen_eq] <;> omega

theorem parse_ok_perm {f : Nat} {input out : List Char}
    (hnn : '\x00' ∉ input) (h : parse f input = .ok out) :
    ∃ payload, out = payload ++ ['\x00'] ∧
      payload.Perm (input.filter notParen) ∧
      payload.length + (input.filter isParen).length = input.length := by
  obtain ⟨p1, he, hpk, rfl, -⟩ := parse_ok_anatomy h
  obtain ⟨⟨pre, d, hpre, hout, hperm⟩, -⟩ := (consumes_all f).2.1 _ _ _ he
  have hnil : p1.input = [] := by
    rcases peek_null_cases hpk with h0 | ⟨rest, h0⟩
    · exact h0
    · exfalso
      apply hnn
      have hin : input = pre ++ '\x00' :: rest := by
        rw [← h0]
        exact hpre
      rw [hin]
      simp
  rw [hnil, List.append_nil] at hpre
  have hpre' : input = pre := hpre
  have hout' : p1.output = d := by simpa using hout
  refine ⟨p1.output, rfl, ?_, ?_⟩
  · rw [hout', hpre']
    exact hperm
  · rw [hout', hpre']
    rw [hperm.length_eq]
    exact filter_split_length pre

/-- Input whose postfix payload is exactly 1024 characters, filling the
whole output buffer and leaving no room for the terminating sentinel. -/
def overflow_tail : Nat → List Char
  | 0 => []
  | n + 1 => '+' :: 'a' :: overflow_tail n

def overflow_input : List Char := '~' :: 'a' :: overflow_tail 511

/-- The payload emitted while the climber eats the chain `(+a)^n`. -/
def overflow_emitted : Nat → List Char
  | 0 => []
  | n + 1 => 'a' :: '+' :: overflow_emitted n

theorem overflow_tail_length (n : Nat) : (overflow_tail n).length = 2 * n := by
  induction n with
  | zero => rfl
  | succ n ih =>
    show ('+' :: 'a' :: overflow_tail n).length = 2 * (n + 1)
    simp only [List.length_cons, ih]
    omega

theorem overflow_emitted_length (n : Nat) :
    (overflow_emitted n).length = 2 * n := by
  induction n with
  | zero => rfl
  | succ n ih =>
    show ('a' :: '+' :: overflow_emitted n).length = 2 * (n + 1)
    simp only [List.length_cons, ih]
    omega

theorem overflow_input_length : overflow_input.length = 1024 := by
  show ('~' :: 'a' :: overflow_tail 511).length = 1024
  simp only [List.length_cons, overflow_tail_length 511]

theorem loop_chain (k : Nat) : ∀ (o : List Char) (f : Nat), 3 * k + 1 ≤ f →
    o.length + 2 * k ≤ MAX_OUTPUT →
    parse_expr_loop f 0 ⟨overflow_tail k, o⟩ =
      .ok ⟨[], o ++ overflow_emitted k⟩ := by
  induction k with
  | zero =>
    intro o f hf hlen
    obtain ⟨f1, rfl⟩ : ∃ m, f = m + 1 := ⟨f - 1, by omega⟩
    rw [parse_expr_loop_none f1 0 ⟨overflow_tail 0, o⟩ rfl]
    show PResult.ok (⟨[], o⟩ : Parser) = .ok ⟨[], o ++ overflow_emitted 0⟩
    simp [overflow_emitted]
  | succ k ih =>
    intro o f hf hlen
    obtain ⟨f1, rfl⟩ : ∃ m, f = m + 1 := ⟨f - 1, by omega⟩
    obtain ⟨f2, rfl⟩ : ∃ m, f1 = m + 1 := ⟨f1 - 1, by omega⟩
    obtain ⟨f3, rfl⟩ : ∃ m, f2 = m + 1 := ⟨f2 - 1, by omega⟩
    have hlen' : o.length + 2 * (k + 1) ≤ 1024 := hlen
    rw [show (⟨overflow_tail (k + 1), o⟩ : Parser) =
        ⟨'+' :: ('a' :: overflow_tail k), o⟩ from rfl]
    rw [parse_expr_loop_go (f3 + 1 + 1) 0 ('a' :: overflow_tail k) o
      additive_op (show operator_info '+' = some additive_op from rfl) (by decide)]
    rw [show additive_op.precedence -
        (if additive_op.right_associative then 1 else 0) = 10 from rfl]
    have hexpr : parse_expr (f3 + 1 + 1) 10 ⟨'a' :: overflow_tail k, o⟩ =
        .ok ⟨overflow_tail k, o ++ ['a']⟩ := by
      rw [show f3 + 1 + 1 = (f3 + 1) + 1 from rfl]
      rw [parse_expr_succ]
      rw [parse_primary_alpha f3 (overflow_tail k) o (by decide)]
      have hemit : emit ⟨overflow_tail k, o⟩ 'a' =
          .ok ⟨overflow_tail k, o ++ ['a']⟩ := by
        rw [emit_ok_iff]
        refine ⟨?_, rfl⟩
        show ¬ o.length = MAX_OUTPUT
        have : MAX_OUTPUT = 1024 := rfl
        omega
      rw [hemit]
      simp only []
      cases k with
      | zero => exact parse_expr_loop_none f3 10 _ rfl
      | succ k2 => exact parse_expr_loop_low f3 10 _ additive_op rfl (by decide)
    rw [hexpr]
    simp only []
    have hemit2 : emit ⟨overflow_tail k, o ++ ['a']⟩ '+' =
        .ok ⟨overflow_tail k, (o ++ ['a']) ++ ['+']⟩ := by
      rw [emit_ok_iff]
      refine ⟨?_, rfl⟩
      show ¬ (o ++ ['a']).length = MAX_OUTPUT
      have h1 : MAX_OUTPUT = 1024 := rfl
      simp only [List.length_append, List.length_cons, List.length_nil]
      omega
    rw [hemit2]
    simp only []
    have hcont := ih ((o ++ ['a']) ++ ['+']) (f3 + 1 + 1) (by omega)
      (by simp only [List.length_append, List.length_cons, List.length_nil]
          have h1 : MAX_OUTPUT = 1024 := rfl
          omega)
    rw [hcont]
    show PResult.ok (⟨[], ((o ++ ['a']) ++ ['+']) ++ overflow_emitted k⟩ : Parser) =
      .ok ⟨[], o ++ overflow_emitted (k + 1)⟩
    rw [show overflow_emitted (k + 1) = 'a' :: '+' :: overflow_emitted k from rfl]
    simp

theorem parse_primary_overflow_start :
    parse_primary 3075 ⟨overflow_input, []⟩ =
      .ok ⟨overflow_tail 511, ['a', '~']⟩ := by
  rw [show (⟨overflow_input, []⟩ : Parser) =
      ⟨'~' :: ('a' :: overflow_tail 511), ([] : List Char)⟩ from rfl]
  rw [show (3075 : Nat) = 3074 + 1 from rfl]
  rw [parse_primary_tilde 3074 ('a' :: overflow_tail 511) []]
  rw [show (3074 : Nat) = 3073 + 1 from rfl]
  rw [parse_primary_alpha 3073 (overflow_tail 511) [] (by decide)]
  have he1 : emit ⟨overflow_tail 511, []⟩ 'a' = .ok ⟨overflow_tail 511, ['a']⟩ := by
    rw [emit_ok_iff]
    exact ⟨by decide, rfl⟩
  rw [he1]
  simp only []
  have he2 : emit ⟨overflow_tail 511, ['a']⟩ '~' =
      .ok ⟨overflow_tail 511, ['a', '~']⟩ := by
    rw [emit_ok_iff]
    exact ⟨by decide, rfl⟩
  rw [he2]

theorem fuelFor_eq (input : List Char) : fuelFor input = 3 * input.length + 4 := rfl

theorem parseC_eq (input : List Char) :
    parseC input = parse (fuelFor input) input := rfl

theorem parse_eq (f : Nat) (input : List Char) :
    parse f input =
      match parse_expr f 0 ⟨input, []⟩ with
      | .ok p1 =>
        (match expect p1 '\x00' with
         | .ok p2 =>
           (match emit p2 '\x00' with
            | .ok p3 => .ok p3.output
            | .err e => .err e
            | .outOfFuel => .outOfFuel)
         | .err e => .err e
         | .outOfFuel => .outOfFuel)
      | .err e => .err e
      | .outOfFuel => .outOfFuel := rfl

theorem emit_full {p : Parser} (ch : Char)
    (h : p.output.length = MAX_OUTPUT) : emit p ch = .err .outputOverflow := by
  unfold emit
  rw [if_pos h]

theorem parse_overflow : parseC overflow_input = .err .outputOverflow := by
  have hF : fuelFor overflow_input = 3076 := by
    rw [fuelFor_eq, overflow_input_length]
  rw [parseC_eq, hF]
  have hexpr : parse_expr 3076 0 ⟨overflow_input, []⟩ =
      .ok ⟨[], ['a', '~'] ++ overflow_emitted 511⟩ := by
    rw [show (3076 : Nat) = 3075 + 1 from rfl]
    rw [parse_expr_succ]
    rw [parse_primary_overflow_start]
    simp only []
    have hloop := loop_chain 511 ['a', '~'] 3075 (by norm_num) (by decide)
    exact hloop
  rw [parse_eq]
  rw [hexpr]
  simp only []
  have hex : expect ⟨([] : List Char), ['a', '~'] ++ overflow_emitted 511⟩ '\x00' =
      .ok ⟨[], ['a', '~'] ++ overflow_emitted 511⟩ := by
    rw [expect_ok_iff]
    exact ⟨rfl, rfl⟩
  rw [hex]
  simp only []
  have hemitlen : ((['a', '~'] : List Char) ++ overflow_emitted 511).length = MAX_OUTPUT := by
    simp only [List.length_append, List.length_cons, List.length_nil,
      overflow_emitted_length 511]
    rfl
  rw [emit_full '\x00' hemitlen]

/-! ### The claims -/

/-- Claim C1: the precedence climber first parses exactly one primary
expression, then loops: it peeks the next token without consuming it and
stops (returning its state unchanged) when that token is not a
recognized binary operator or its precedence is at most the floor;
otherwise it consumes the operator, recurses with floor equal to the
operator's precedence minus one for a right-associative operator and
unchanged for a left-associative one, and emits the operator after the
right operand's emissions before continuing the loop. -/
theorem claim_C1_climber (f prec : Nat) (p : Parser) :
    (parse_expr (f + 1) prec p =
      match parse_primary f p with
      | .ok p1 => parse_expr_loop f prec p1
      | .err e => .err e
      | .outOfFuel => .outOfFuel) ∧
    (operator_info (peek_next_char p) = none →
      parse_expr_loop (f + 1) prec p = .ok p) ∧
    (∀ op, operator_info (peek_next_char p) = some op → op.precedence ≤ prec →
      parse_expr_loop (f + 1) prec p = .ok p) ∧
    (∀ op ch rest (o : List Char), operator_info ch = some op →
      prec < op.precedence →
      parse_expr_loop (f + 1) prec ⟨ch :: rest, o⟩ =
        match parse_expr f
            (if op.right_associative then op.precedence - 1 else op.precedence)
            ⟨rest, o⟩ with
        | .ok p2 =>
          (match emit p2 ch with
           | .ok p3 => parse_expr_loop f prec p3
           | .err e => .err e
           | .outOfFuel => .outOfFuel)
        | .err e => .err e
        | .outOfFuel => .outOfFuel) ∧
    (∀ op ch rest (o : List Char) p2, operator_info ch = some op →
      prec < op.precedence →
      parse_expr f
          (if op.right_associative then op.precedence - 1 else op.precedence)
          ⟨rest, o⟩ = .ok p2 →
      ¬ p2.output.length = MAX_OUTPUT →
      parse_expr_loop (f + 1) prec ⟨ch :: rest, o⟩ =
        parse_expr_loop f prec ⟨p2.input, p2.output ++ [ch]⟩) := by
  refine ⟨parse_expr_succ f prec p, parse_expr_loop_none f prec p,
    fun op h hle => parse_expr_loop_low f prec p op h hle, ?_, ?_⟩
  · intro op ch rest o ho hgt
    have harg : (if op.right_associative then op.precedence - 1 else op.precedence)
        = op.precedence - (if op.right_associative then 1 else 0) := by
      cases op.right_associative <;> simp
    rw [harg]
    exact parse_expr_loop_go f prec rest o op ho hgt
  · intro op ch rest o p2 ho hgt he hlen
    have harg : (if op.right_associative then op.precedence - 1 else op.precedence)
        = op.precedence - (if op.right_associative then 1 else 0) := by
      cases op.right_associative <;> simp
    rw [harg] at he
    rw [parse_expr_loop_go f prec rest o op ho hgt]
    rw [he]
    simp only []
    have hem : emit p2 ch = .ok ⟨p2.input, p2.output ++ [ch]⟩ := by
      rw [emit_ok_iff]
      exact ⟨hlen, rfl⟩
    rw [hem]

/-- Witness for C1: the climber stops on a peeked `+` when the floor
already equals the additive precedence. -/
theorem claim_C1_climber_witness :
    operator_info (peek_next_char ⟨['+', 'a'], []⟩) = some additive_op ∧
    additive_op.precedence ≤ 10 ∧
    parse_expr_loop 6 10 ⟨['+', 'a'], []⟩ = .ok ⟨['+', 'a'], []⟩ :=
  ⟨rfl, by decide,
   (claim_C1_climber 5 10 ⟨['+', 'a'], []⟩).2.2.1 additive_op rfl (by decide)⟩

/-- Claim C2: the operator table maps exactly the five characters
`= + - * /` to descriptors, `=` with precedence 1 right-associative,
`+ -` with precedence 10 left-associative, `* /` with precedence 20
left-associative, every other character to `none`; `=` is the lowest
precedence and adjacent precedence classes are separated by gaps. -/
theorem claim_C2_operator_table (c : Char) :
    operator_info '=' = some { precedence := 1, right_associative := true } ∧
    operator_info '+' = some { precedence := 10, right_associative := false } ∧
    operator_info '-' = some { precedence := 10, right_associative := false } ∧
    operator_info '*' = some { precedence := 20, right_associative := false } ∧
    operator_info '/' = some { precedence := 20, right_associative := false } ∧
    (c ≠ '=' → c ≠ '+' → c ≠ '-' → c ≠ '*' → c ≠ '/' →
      operator_info c = none) ∧
    assignment_op.precedence < additive_op.precedence ∧
    assignment_op.precedence + 1 < additive_op.precedence ∧
    additive_op.precedence + 1 < multiplicative_op.precedence := by
  refine ⟨rfl, rfl, rfl, rfl, rfl, ?_, by decide, by decide, by decide⟩
  intro h1 h2 h3 h4 h5
  unfold operator_info
  split <;> simp_all

/-- Witness for C2: the letter `x` is not an operator. -/
theorem claim_C2_operator_table_witness :
    ('x' ≠ '=' ∧ 'x' ≠ '+' ∧ 'x' ≠ '-' ∧ 'x' ≠ '*' ∧ 'x' ≠ '/') ∧
    operator_info 'x' = none :=
  ⟨by decide,
   (claim_C2_operator_table 'x').2.2.2.2.2.1 (by decide) (by decide)
     (by decide) (by decide) (by decide)⟩

/-- Claim C3: equal-precedence chains group left-to-right for a
left-associative operator and right-to-left for a right-associative one:
`a+b+c` gives `ab+c+` and `a=b=c` gives `abc==`. -/
theorem claim_C3_associativity :
    parseC "a+b+c".toList = .ok ("ab+c+".toList ++ ['\x00']) ∧
    parseC "a=b=c".toList = .ok ("abc==".toList ++ ['\x00']) :=
  ⟨by decide, by decide⟩

/-- Claim C4: a higher-precedence operator binds tighter and appears
first in the postfix output, and parenthesized grouping overrides
precedence: `a+b*c` gives `abc*+`, `a*b+c` gives `ab*c+`, `(a+b)*c`
gives `ab+c*`. -/
theorem claim_C4_precedence :
    parseC "a+b*c".toList = .ok ("abc*+".toList ++ ['\x00']) ∧
    parseC "a*b+c".toList = .ok ("ab*c+".toList ++ ['\x00']) ∧
    parseC "(a+b)*c".toList = .ok ("ab+c*".toList ++ ['\x00']) :=
  ⟨by decide, by decide, by decide⟩

/-- Claim C5: on a `~` the primary parser recursively parses a full
primary expression and emits `~` after that operand's emissions,
supporting arbitrary nesting and binding tighter than every binary
operator: `~a` gives `a~`, `~~a` gives `a~~`, `a*~b` gives `ab~*`. -/
theorem claim_C5_unary :
    (∀ (f : Nat) (rest o : List Char),
      parse_primary (f + 1) ⟨'~' :: rest, o⟩ =
        match parse_primary f ⟨rest, o⟩ with
        | .ok p2 => emit p2 '~'
        | .err e => .err e
        | .outOfFuel => .outOfFuel) ∧
    (∀ p2 p3 : Parser, emit p2 '~' = .ok p3 → p3.output = p2.output ++ ['~']) ∧
    parseC "~a".toList = .ok ("a~".toList ++ ['\x00']) ∧
    parseC "~~a".toList = .ok ("a~~".toList ++ ['\x00']) ∧
    parseC "a*~b".toList = .ok ("ab~*".toList ++ ['\x00']) := by
  refine ⟨parse_primary_tilde, ?_, by decide, by decide, by decide⟩
  intro p2 p3 h
  rw [emit_ok_iff] at h
  obtain ⟨-, rfl⟩ := h
  rfl

/-- Witness for C5: emitting `~` appends it after the operand output. -/
theorem claim_C5_unary_witness :
    emit ⟨[], ['a']⟩ '~' = .ok ⟨[], ['a', '~']⟩ ∧
    (⟨[], ['a', '~']⟩ : Parser).output = (⟨[], ['a']⟩ : Parser).output ++ ['~'] :=
  ⟨by decide, claim_C5_unary.2.1 ⟨[], ['a']⟩ ⟨[], ['a', '~']⟩ (by decide)⟩

/-- Claim C6: on success every consumed variable and operator is emitted
exactly once and parentheses emit nothing: the payload before the
sentinel is a permutation of the non-parenthesis input characters, so
its length plus the number of parenthesis characters is the input
length. -/
theorem claim_C6_token_accounting (f : Nat) (input out : List Char)
    (hnn : '\x00' ∉ input) (h : parse f input = .ok out) :
    ∃ payload, out = payload ++ ['\x00'] ∧
      payload.Perm (input.filter notParen) ∧
      payload.length + (input.filter isParen).length = input.length :=
  parse_ok_perm hnn h

/-- Witness for C6 at input `(a)`. -/
theorem claim_C6_token_accounting_witness :
    ('\x00' ∉ "(a)".toList) ∧
    ∃ payload, ("a".toList ++ ['\x00']) = payload ++ ['\x00'] ∧
      payload.Perm ("(a)".toList.filter notParen) ∧
      payload.length + ("(a)".toList.filter isParen).length =
        "(a)".toList.length :=
  ⟨by decide,
   claim_C6_token_accounting 13 "(a)".toList ("a".toList ++ ['\x00'])
     (by decide) (by decide)⟩

/-- Claim C7: whenever the primary parser is invoked with a next token
that is neither a letter, nor `~`, nor `(` — including the end sentinel
on empty input — it fails with an unexpected-token error naming that
token, and every unexpected-token error produced by `parse` names such
a non-starter token. -/
theorem claim_C7_unexpected_token :
    (∀ (f : Nat) (p : Parser), ¬ (peek_next_char p).isAlpha →
      peek_next_char p ≠ '~' → peek_next_char p ≠ '(' →
      parse_primary (f + 1) p = .err (.unexpectedToken (peek_next_char p))) ∧
    (∀ (f : Nat) (input : List Char) (c : Char),
      parse f input = .err (.unexpectedToken c) →
      ¬ c.isAlpha ∧ c ≠ '~' ∧ c ≠ '(') :=
  ⟨fun f p h1 h2 h3 => parse_primary_bad f p (peek_next_char p) rfl h1 h2 h3,
   fun f input c h => parse_err_unexpected h⟩

/-- Witness for C7: a stray `)` and the empty input both fail. -/
theorem claim_C7_unexpected_token_witness :
    parse_primary 1 ⟨[')'], []⟩ = .err (.unexpectedToken ')') ∧
    parse_primary 1 ⟨[], []⟩ = .err (.unexpectedToken '\x00') ∧
    (¬ ('!').isAlpha ∧ '!' ≠ '~' ∧ '!' ≠ '(') :=
  ⟨claim_C7_unexpected_token.1 0 ⟨[')'], []⟩ (by decide) (by decide) (by decide),
   claim_C7_unexpected_token.1 0 ⟨[], []⟩ (by decide) (by decide) (by decide),
   claim_C7_unexpected_token.2 7 "!".toList '!' (by decide)⟩

/-- Claim C8: a mismatch error names the expected and actual symbol,
arises only with expected symbol `)` (after a parenthesized
subexpression) or the end sentinel (for trailing tokens at top level),
and a parse whose expression consumes the whole input raises no
mismatch. -/
theorem claim_C8_token_mismatch :
    (∀ (p : Parser) (ex : Char), (next_char p).1 ≠ ex →
      expect p ex = .err (.tokenMismatch ex (next_char p).1)) ∧
    (∀ (f : Nat) (input : List Char) (e g : Char),
      parse f input = .err (.tokenMismatch e g) →
      (e = ')' ∨ e = '\x00') ∧ g ≠ e) ∧
    (∀ (f prec : Nat) (p : Parser) (e g : Char),
      parse_expr f prec p = .err (.tokenMismatch e g) → e = ')' ∧ g ≠ ')') ∧
    (∀ (f : Nat) (input : List Char) (p1 : Parser),
      parse_expr f 0 ⟨input, []⟩ = .ok p1 → p1.input = [] →
      ∀ e g, parse f input ≠ .err (.tokenMismatch e g)) := by
  refine ⟨?_, ?_, ?_, ?_⟩
  · intro p ex hne
    rw [expect_err_iff]
    exact ⟨hne, rfl⟩
  · intro f input e g h
    exact parse_err_mismatch h
  · intro f prec p e g h
    exact (err_all f).2.1 prec p _ h
  · intro f input p1 he hnil
    exact parse_complete_no_mismatch he hnil

/-- Witness for C8: `(a` fails expecting `)`, while `a` (fully consumed)
never raises a mismatch. -/
theorem claim_C8_token_mismatch_witness :
    ((')' = ')' ∨ ')' = '\x00') ∧ '\x00' ≠ ')') ∧
    (∀ e g, parse 7 "a".toList ≠ .err (.tokenMismatch e g)) :=
  ⟨claim_C8_token_mismatch.2.1 10 "(a".toList ')' '\x00' (by decide),
   claim_C8_token_mismatch.2.2.2 7 "a".toList ⟨[], ['a']⟩ (by decide) rfl⟩

/-- Claim C9: for every finite sentinel-terminated input, `parse`
terminates: fuel linear in the input length is never exhausted (the
mutual recursion is well-founded on the remaining input length), and any
larger fuel gives the same result. -/
theorem claim_C9_termination (input : List Char) :
    parse (fuelFor input) input ≠ .outOfFuel ∧
    (∀ f, fuelFor input ≤ f → parse f input = parse (fuelFor input) input) :=
  ⟨parse_ne_oof input, fun f hf => parse_fuel_stable hf⟩

/-- Witness for C9 at input `a+b` with fuel 100. -/
theorem claim_C9_termination_witness :
    fuelFor "a+b".toList ≤ 100 ∧
    parse 100 "a+b".toList = parse (fuelFor "a+b".toList) "a+b".toList :=
  ⟨by decide, (claim_C9_termination "a+b".toList).2 100 (by decide)⟩

/-- Claim C10: the end sentinel goes through the same bounded `emit` as
ordinary tokens and counts against the capacity of 1024, so a successful
parse has a payload of at most 1023 symbols, and an otherwise-valid
input with a 1024-symbol payload fails with output overflow on the
sentinel. -/
theorem claim_C10_output_capacity :
    MAX_OUTPUT = 1024 ∧
    (∀ (f : Nat) (input out : List Char), parse f input = .ok out →
      ∃ payload, out = payload ++ ['\x00'] ∧ payload.length ≤ 1023) ∧
    parseC overflow_input = .err .outputOverflow := by
  refine ⟨rfl, ?_, parse_overflow⟩
  intro f input out h
  obtain ⟨p1, he, -, rfl, hne⟩ := parse_ok_anatomy h
  have hb : p1.output.length ≤ MAX_OUTPUT :=
    (outlen_all f).2.1 _ _ _ he
      (by show ([] : List Char).length ≤ MAX_OUTPUT; decide)
  have hb' : p1.output.length ≤ 1024 := hb
  have hne' : ¬ p1.output.length = 1024 := hne
  exact ⟨p1.output, rfl, by omega⟩

/-- Witness for C10 at input `a`. -/
theorem claim_C10_output_capacity_witness :
    parse 7 "a".toList = .ok ("a".toList ++ ['\x00']) ∧
    ∃ payload, ("a".toList ++ ['\x00']) = payload ++ ['\x00'] ∧
      payload.length ≤ 1023 :=
  ⟨by decide,
   claim_C10_output_capacity.2.1 7 "a".toList ("a".toList ++ ['\x00'])
     (by decide)⟩

end Pratt
